import Mathlib

/-!
Verification model of the long-term memory store: a shallow embedding of
`src/task/tools/memory/memory_store.py`
(`LongTermMemoryStore`).

Modelling conventions:
* Machine floats become exact rationals (`ℚ`).  The source L2-normalizes
  every embedding (and the query) before handing them to the FAISS
  inner-product index, so the inner products it ranks by are exactly the
  cosine similarities of the stored vectors.  The model therefore works
  directly with the normalized vectors: `dotQ` is the inner product, and
  theorems that need "inner product = cosine similarity" carry the
  hypothesis that the embeddings involved are unit vectors
  (`dotQ e e = 1`), which is what `faiss.normalize_L2` establishes.
* The exact FAISS `IndexFlatIP` search is modelled as sorting all indices
  by similarity, descending, ties broken by lower index first (the stable
  order for an exhaustive scan, and the tie rule stated in the spec).
* Timestamps (`datetime.now(UTC)`) become rationals counting seconds;
  `timedelta(hours=24)` is `24 * 3600` seconds.
* `async` calls to DIAL storage become explicit state passing over
  `StoreState`; points where the Python code can raise (embedding
  computation, upload, delete) take injected `Bool` outcome flags, and a
  raised exception is `Except.error ()`.
* Python objects are aliased: `_load_memories` returns the very object
  stored in `self._cache`, so every in-place mutation of the loaded
  collection (`collection.memories.append(...)`,
  `collection.memories = ...`, `memories.updated_at = ...`) is visible in
  the cache immediately, before any upload.  The state-passing model
  mirrors this by updating the `cache` field at each mutation point.
-/

/-- Modelled from the spec: the `MemoryData` record of
`task/tools/memory/_models.py` (that module is not among the sources;
fields follow spec section 3: id, content, importance in [0,1], category,
topics). -/
structure MemoryData where
  id : Int
  content : String
  importance : ℚ
  category : String
  topics : List String
deriving DecidableEq

/-- Modelled from the spec: the storage-internal `Memory` record of
`task/tools/memory/_models.py`: visible payload plus embedding vector. -/
structure Memory where
  data : MemoryData
  embedding : List ℚ
deriving DecidableEq

/-- Modelled from the spec: the `MemoryCollection` document of
`task/tools/memory/_models.py`: ordered list of memories, `updated_at`
timestamp and optional `last_deduplicated_at` timestamp. -/
structure MemoryCollection where
  memories : List Memory
  updated_at : ℚ
  last_deduplicated_at : Option ℚ
deriving DecidableEq

/-- Constant `LongTermMemoryStore.DEDUP_INTERVAL_HOURS`. -/
def DEDUP_INTERVAL_HOURS : ℚ := 24

/-- Constant `LongTermMemoryStore.SIMILARITY_THRESHOLD`, the rational
3/4 = 0.75 (written through `Rat.divInt` so that comparisons against it
reduce inside the kernel; see `similarity_threshold_eq`). -/
def SIMILARITY_THRESHOLD : ℚ := Rat.divInt 3 4

/-- Constant `LongTermMemoryStore.MIN_MEMORIES_FOR_DEDUP`. -/
def MIN_MEMORIES_FOR_DEDUP : ℕ := 10

/-- Rational multiplication written through `Rat.divInt` so that it
reduces inside the kernel (the library's `Rat.mul` is sealed); proven
equal to `*` in `qmul_eq` below. -/
def qmul (a b : ℚ) : ℚ :=
  Rat.divInt (a.num * b.num) ((a.den : ℤ) * b.den)

/-- Rational addition written through `Rat.divInt`; proven equal to `+`
in `qadd_eq` below. -/
def qadd (a b : ℚ) : ℚ :=
  Rat.divInt (a.num * b.den + b.num * a.den) ((a.den : ℤ) * b.den)

/-- Rational subtraction written through `Rat.divInt`; proven equal to
`-` in `qsub_eq` below. -/
def qsub (a b : ℚ) : ℚ :=
  Rat.divInt (a.num * b.den - b.num * a.den) ((a.den : ℤ) * b.den)

/-- Truncation of a rational toward zero, as Python's `int(...)` does to
the POSIX timestamp (integer T-division of numerator by denominator). -/
def truncQ (q : ℚ) : ℤ :=
  q.num / (q.den : ℤ)

/-- Inner product of two vectors (`np.dot` / FAISS `IndexFlatIP` score on
the normalized embedding matrix). -/
def dotQ : List ℚ → List ℚ → ℚ
  | a :: as, b :: bs => qadd (qmul a b) (dotQ as bs)
  | _, _ => 0

/-- Default record used to give list indexing a total type (all uses are
guarded by index bounds). -/
def mdef : Memory := ⟨⟨0, "", 0, "", []⟩, []⟩

/-- Embedding of the record at index `i` of a collection's memory list. -/
def embAt (mems : List Memory) (i : ℕ) : List ℚ :=
  (mems.getD i mdef).embedding

/-- Importance of the record at index `i`. -/
def impAt (mems : List Memory) (i : ℕ) : ℚ :=
  (mems.getD i mdef).data.importance

/-- Ranking relation of the exact FAISS search for one query: index `i`
comes before index `j` when its similarity is strictly larger, or on
equal similarity when `i ≤ j` (stable tie-break by insertion order, as
the spec's vector-index section states). -/
def simRank (sims : ℕ → ℚ) (i j : ℕ) : Prop :=
  sims j < sims i ∨ (sims i = sims j ∧ i ≤ j)

instance (sims : ℕ → ℚ) : DecidableRel (simRank sims) := fun _ _ => by
  unfold simRank; infer_instance

instance (sims : ℕ → ℚ) : IsTotal ℕ (simRank sims) where
  total i j := by
    rcases lt_trichotomy (sims i) (sims j) with h | h | h
    · exact Or.inr (Or.inl h)
    · rcases Nat.le_total i j with hij | hij
      · exact Or.inl (Or.inr ⟨h, hij⟩)
      · exact Or.inr (Or.inr ⟨h.symm, hij⟩)
    · exact Or.inl (Or.inl h)

instance (sims : ℕ → ℚ) : IsTrans ℕ (simRank sims) where
  trans i j l hij hjl := by
    rcases hij with h1 | ⟨e1, le1⟩
    · rcases hjl with h2 | ⟨e2, _⟩
      · exact Or.inl (h2.trans h1)
      · exact Or.inl (e2 ▸ h1)
    · rcases hjl with h2 | ⟨e2, le2⟩
      · exact Or.inl (e1 ▸ h2)
      · exact Or.inr ⟨e1.trans e2, le1.trans le2⟩

/-- Model of `index.search`: the indices `0..n-1` ranked by decreasing
similarity, truncated to the `k` best (`distances[i], indices[i]` rows). -/
def knnIndices (sims : ℕ → ℚ) (n k : ℕ) : List ℕ :=
  (List.insertionSort (simRank sims) (List.range n)).take k

/-- Row `i` of the similarity matrix used by `_deduplicate_fast`:
similarity of record `i` to record `j`. -/
def neighborSims (mems : List Memory) (i : ℕ) : ℕ → ℚ :=
  fun j => dotQ (embAt mems i) (embAt mems j)

/-- The neighbor indices record `i` iterates over in `_deduplicate_fast`:
positions `1..k-1` of its k-nearest-neighbor row (position 0 is skipped
by the source as the presumed self-match). -/
def neighborList (mems : List Memory) (k i : ℕ) : List ℕ :=
  (knnIndices (neighborSims mems i) mems.length k).drop 1

/-- Inner loop of `_deduplicate_fast` (`for j_pos in range(1, k)`) for
subject record `i`: walk the neighbor row, skip neighbors below the
similarity threshold or already removed, otherwise remove the
less-important side (ties: remove the neighbor); removing the subject
stops its scan (`break`). -/
def scanNeighbors (mems : List Memory) (i : ℕ) : List ℕ → List ℕ → List ℕ
  | [], R => R
  | j :: rest, R =>
    if neighborSims mems i j < SIMILARITY_THRESHOLD ∨ j ∈ R then
      scanNeighbors mems i rest R
    else if impAt mems j ≤ impAt mems i then
      scanNeighbors mems i rest (j :: R)
    else
      i :: R

/-- One iteration of the outer loop of `_deduplicate_fast`
(`for i in range(len(memories))` with the `if i in to_remove: continue`
guard). -/
def dedupStep (mems : List Memory) (k : ℕ) (R : List ℕ) (i : ℕ) : List ℕ :=
  if i ∈ R then R else scanNeighbors mems i (neighborList mems k i) R

/-- The `to_remove` set after the whole double loop of
`_deduplicate_fast` (with `k = min(10, len(memories))`), as the list of
removed indices (membership is all that is ever asked of it). -/
def removedSet (mems : List Memory) : List ℕ :=
  (List.range mems.length).foldl (dedupStep mems (min 10 mems.length)) []

/-- Model of `LongTermMemoryStore._deduplicate_fast`. -/
def deduplicate_fast (mems : List Memory) : List Memory :=
  if mems.length ≤ 1 then mems
  else ((mems.enum.filter fun p => p.1 ∉ removedSet mems).map Prod.snd)

/-- Justification invariant of the removal loop: a removed record always
has a justifying record within the similarity threshold whose importance
is at least its own, and the justifier can only be the removed record
itself when that record occurs in its own scanned neighbor row (its
self-match was displaced from position 0, which needs another record
ranked at least as close to it as itself). -/
def JustifiedStrict (mems : List Memory) (k : ℕ) (r : ℕ) : Prop :=
  ∃ s, s < mems.length ∧
    SIMILARITY_THRESHOLD ≤ dotQ (embAt mems r) (embAt mems s) ∧
    impAt mems r ≤ impAt mems s ∧
    (s ≠ r ∨ r ∈ neighborList mems k r)

/-- The deduplication interval `timedelta(hours=DEDUP_INTERVAL_HOURS)`
expressed in seconds (24 hours; see `dedupIntervalSeconds_eq`). -/
def dedupIntervalSeconds : ℚ := 86400

/-- Model of `LongTermMemoryStore._needs_deduplication`. -/
def needs_deduplication (col : MemoryCollection) (now : ℚ) : Bool :=
  if col.memories.length ≤ MIN_MEMORIES_FOR_DEDUP then false
  else
    match col.last_deduplicated_at with
    | none => true
    | some t => decide (qsub now t > dedupIntervalSeconds)

/-- Effect of `_deduplicate_and_save` plus the timestamp refresh done by
`_save_memories` on the collection value: replace the memory list with
the deduplicated one, stamp `last_deduplicated_at`, stamp `updated_at`. -/
def deduplicate_apply (col : MemoryCollection) (now : ℚ) : MemoryCollection :=
  { memories := deduplicate_fast col.memories
    updated_at := now
    last_deduplicated_at := some now }

/-- Contents of the user's `__long-memories/data.json` blob as seen by
`_load_memories`: missing object, or one of the three corrupt shapes the
`try` block can die on (undecodable bytes / malformed JSON /
schema-invalid document), or a valid document. -/
inductive Stored where
  | absent
  | badBytes
  | badJson
  | badSchema
  | good (c : MemoryCollection)
deriving DecidableEq

deriving instance DecidableEq for Except

/-- Process state touched by the store for one user path: the DIAL blob
and the `self._cache` entry for that path. -/
structure StoreState where
  storage : Stored
  cache : Option MemoryCollection
deriving DecidableEq

/-- A fresh empty collection
(`MemoryCollection(memories=[], updated_at=datetime.now(UTC))`;
`last_deduplicated_at` defaults to absent per the spec's data model). -/
def emptyCollection (now : ℚ) : MemoryCollection :=
  ⟨[], now, none⟩

/-- Model of `LongTermMemoryStore._load_memories`.  Returns the
collection, a flag recording whether storage was contacted, and the
state after the call (the cache always ends up holding the returned
collection). -/
def load_memories (now : ℚ) (s : StoreState) : MemoryCollection × Bool × StoreState :=
  match s.cache with
  | some c => (c, false, s)
  | none =>
    let col :=
      match s.storage with
      | .good c => c
      | _ => emptyCollection now
    (col, true, { s with cache := some col })

/-- Model of `LongTermMemoryStore.add_memory`.  `encodeOk` is the outcome
of `self.model.encode([content])` (its vector is `emb`), `uploadOk` the
outcome of `dial_client.files.upload`.  Because the loaded collection is
the cached object, the append and the `updated_at` stamp are visible in
the cache even when the upload then fails.  The confirmation string is
the source message with the quoting around the content dropped. -/
def add_memory (now : ℚ) (encodeOk uploadOk : Bool) (content : String)
    (imp : ℚ) (category : String) (topics : List String) (emb : List ℚ)
    (s : StoreState) : Except Unit String × StoreState :=
  let col := (load_memories now s).1
  let s1 := (load_memories now s).2.2
  if !encodeOk then (.error (), s1)
  else
    let m : Memory := ⟨⟨truncQ now, content, imp, category, topics⟩, emb⟩
    let col1 := { col with memories := col.memories ++ [m] }
    let s2 := { s1 with cache := some col1 }
    let col2 := { col1 with updated_at := now }
    let s3 := { s2 with cache := some col2 }
    if uploadOk then
      (.ok ("Memory stored successfully: " ++ content), { s3 with storage := .good col2 })
    else (.error (), s3)

/-- The search rows `index.search(query_embedding, k)` with
`k = min(top_k, len(memories))`: indices of the `k` most similar
records. -/
def searchTopIndices (qEmb : List ℚ) (mems : List Memory) (top_k : ℕ) : List ℕ :=
  knnIndices (fun j => dotQ qEmb (embAt mems j)) mems.length (min top_k mems.length)

/-- The matched memories, in result order. -/
def searchTopMems (qEmb : List ℚ) (mems : List Memory) (top_k : ℕ) : List Memory :=
  (searchTopIndices qEmb mems top_k).map fun i => mems.getD i mdef

/-- Model of `LongTermMemoryStore.search_memories`.  `qEmb` is the
(normalized) query embedding, `uploadOk` the outcome of the upload
inside the deduplicate-and-save branch.  Mirrors the source order: early
return on an empty collection, then the deduplication trigger, then the
index search; the dedup branch mutates the cached collection before the
upload and aborts without results when the upload fails. -/
def search_memories (now : ℚ) (uploadOk : Bool) (qEmb : List ℚ) (top_k : ℕ)
    (s : StoreState) : Except Unit (List MemoryData) × StoreState :=
  let col := (load_memories now s).1
  let s1 := (load_memories now s).2.2
  if col.memories.isEmpty then (.ok [], s1)
  else if needs_deduplication col now then
    let col2 := deduplicate_apply col now
    let s2 := { s1 with cache := some col2 }
    if uploadOk then
      (.ok ((searchTopMems qEmb col2.memories top_k).map (·.data)), { s2 with storage := .good col2 })
    else (.error (), s2)
  else
    (.ok ((searchTopMems qEmb col.memories top_k).map (·.data)), s1)

/-- The collection a successful `search_memories` call actually searches:
the loaded collection, after the deduplication pass when the trigger
predicate fires. -/
def searchedCol (now : ℚ) (s : StoreState) : MemoryCollection :=
  let col := (load_memories now s).1
  if needs_deduplication col now then deduplicate_apply col now else col

/-- Model of `LongTermMemoryStore.delete_all_memories`.  `deleteOk` is
the outcome of `dial_client.files.delete`; a failure is swallowed.  The
cache entry is evicted either way and a success message returned. -/
def delete_all_memories (deleteOk : Bool) (s : StoreState) : String × StoreState :=
  ("All memories have been deleted successfully.",
    { storage := if deleteOk then .absent else s.storage, cache := none })

/-- A unit basis vector of dimension `n` (used to build concrete
collections of mutually orthogonal embeddings). -/
def basisVec (n i : ℕ) : List ℚ :=
  (List.range n).map fun j => if j = i then 1 else 0

/-- Concrete input for claim C2: three unit embeddings `u, v, w` with
`u·v = 4/5`, `v·w = 4/5`, `u·w = 7/25`; the middle record has strictly
higher importance than the third but is removed in favor of the first. -/
def c2_mems : List Memory :=
  [⟨⟨0, "x-fact", 1, "c", []⟩, [1, 0]⟩,
   ⟨⟨1, "i-fact", Rat.divInt 9 10, "c", []⟩, [Rat.divInt 4 5, Rat.divInt 3 5]⟩,
   ⟨⟨2, "j-fact", Rat.divInt 1 2, "c", []⟩, [Rat.divInt 7 25, Rat.divInt 24 25]⟩]

/-- Concrete input for claim C4: same geometry as `c2_mems`, but the two
near-duplicate records at indices 1 and 2 have equal importance; a third
record removes the earlier one. -/
def c4_mems : List Memory :=
  [⟨⟨0, "x-note", 1, "c", []⟩, [1, 0]⟩,
   ⟨⟨1, "a-note", Rat.divInt 1 2, "c", []⟩, [Rat.divInt 4 5, Rat.divInt 3 5]⟩,
   ⟨⟨2, "b-note", Rat.divInt 1 2, "c", []⟩, [Rat.divInt 7 25, Rat.divInt 24 25]⟩]

/-- Concrete two-record input for claim C4's amended statement witness. -/
def c4w_mems : List Memory :=
  [⟨⟨0, "w-first", Rat.divInt 1 2, "c", []⟩, [1, 0]⟩,
   ⟨⟨1, "w-second", Rat.divInt 1 2, "c", []⟩, [Rat.divInt 4 5, Rat.divInt 3 5]⟩]

/-- Concrete input for claim C5: 11 records, so the neighbor fan-out is
truncated to 10.  Record 0 (embedding `u`) and record 10 (embedding `w`,
`u·w = 4/5 ≥ 0.75`) are each shielded from one another by the nine
identical records 1..9 (embedding `v`, closer to both `u` and `w` than
they are to each other), so the first pass removes only records 1..9 and
a second pass then removes record 10. -/
def c5_mems : List Memory :=
  [⟨⟨0, "u-rec", Rat.divInt 9 10, "c", []⟩, [1, 0]⟩,
   ⟨⟨1, "v-rec1", Rat.divInt 1 2, "c", []⟩, [Rat.divInt 24 25, Rat.divInt 7 25]⟩,
   ⟨⟨2, "v-rec2", Rat.divInt 1 2, "c", []⟩, [Rat.divInt 24 25, Rat.divInt 7 25]⟩,
   ⟨⟨3, "v-rec3", Rat.divInt 1 2, "c", []⟩, [Rat.divInt 24 25, Rat.divInt 7 25]⟩,
   ⟨⟨4, "v-rec4", Rat.divInt 1 2, "c", []⟩, [Rat.divInt 24 25, Rat.divInt 7 25]⟩,
   ⟨⟨5, "v-rec5", Rat.divInt 1 2, "c", []⟩, [Rat.divInt 24 25, Rat.divInt 7 25]⟩,
   ⟨⟨6, "v-rec6", Rat.divInt 1 2, "c", []⟩, [Rat.divInt 24 25, Rat.divInt 7 25]⟩,
   ⟨⟨7, "v-rec7", Rat.divInt 1 2, "c", []⟩, [Rat.divInt 24 25, Rat.divInt 7 25]⟩,
   ⟨⟨8, "v-rec8", Rat.divInt 1 2, "c", []⟩, [Rat.divInt 24 25, Rat.divInt 7 25]⟩,
   ⟨⟨9, "v-rec9", Rat.divInt 1 2, "c", []⟩, [Rat.divInt 24 25, Rat.divInt 7 25]⟩,
   ⟨⟨10, "w-rec", Rat.divInt 9 10, "c", []⟩, [Rat.divInt 4 5, Rat.divInt 3 5]⟩]

/-- Concrete two-record input for claim C5's amended statement witness:
two orthogonal unit embeddings. -/
def c5w_mems : List Memory :=
  [⟨⟨0, "p-rec", Rat.divInt 1 2, "c", []⟩, [1, 0]⟩,
   ⟨⟨1, "q-rec", Rat.divInt 1 2, "c", []⟩, [0, 1]⟩]

/-- Concrete input for claim C9: two records with identical embeddings.
For the second record, the tie between its self-match and the identical
record 0 is broken toward the lower index, so its self-match sits at
neighbor position 1 — which the source does not skip. -/
def c9_mems : List Memory :=
  [⟨⟨0, "dup-low", Rat.divInt 1 2, "c", []⟩, [1, 0]⟩,
   ⟨⟨1, "dup-high", Rat.divInt 9 10, "c", []⟩, [1, 0]⟩]

/-- Concrete one-record collection for claim C3: the starting stored and
cached collection. -/
def c3_col : MemoryCollection :=
  ⟨[⟨⟨1, "old-fact", Rat.divInt 1 2, "c", []⟩, [1, 0]⟩], 0, none⟩

/-- Concrete starting state for claim C3: the collection is both
persisted and cached (the cache-aliasing situation after any earlier
successful operation). -/
def c3_state : StoreState :=
  ⟨.good c3_col, some c3_col⟩

/-- Concrete 11-record collection of mutually orthogonal unit embeddings
for claim C6's witness. -/
def c6_mems : List Memory :=
  (List.range 11).map fun (i : ℕ) => ⟨⟨(i : Int), toString i, Rat.divInt 1 2, "c", []⟩, basisVec 11 i⟩

/-- Concrete collection for claim C6's witness: 11 memories, never
deduplicated. -/
def c6_col : MemoryCollection :=
  ⟨c6_mems, 0, none⟩

/-- Concrete starting state for claim C6's witness. -/
def c6_state : StoreState :=
  ⟨.good c6_col, some c6_col⟩

/-! Helper lemmas about the kernel-reducible rational operations. -/

theorem qmul_eq (a b : ℚ) : qmul a b = a * b := by
  unfold qmul
  conv_rhs => rw [← Rat.num_divInt_den a, ← Rat.num_divInt_den b]
  rw [Rat.divInt_mul_divInt _ _ (by exact_mod_cast a.den_nz) (by exact_mod_cast b.den_nz)]

theorem qadd_eq (a b : ℚ) : qadd a b = a + b := by
  unfold qadd
  conv_rhs => rw [← Rat.num_divInt_den a, ← Rat.num_divInt_den b]
  rw [Rat.divInt_add_divInt _ _ (by exact_mod_cast a.den_nz) (by exact_mod_cast b.den_nz)]

theorem qsub_eq (a b : ℚ) : qsub a b = a - b := by
  unfold qsub
  conv_rhs => rw [← Rat.num_divInt_den a, ← Rat.num_divInt_den b]
  rw [Rat.divInt_sub_divInt _ _ (by exact_mod_cast a.den_nz) (by exact_mod_cast b.den_nz)]

theorem similarity_threshold_eq : SIMILARITY_THRESHOLD = 3 / 4 := by
  unfold SIMILARITY_THRESHOLD
  rw [Rat.divInt_eq_div]
  norm_num

theorem dedupIntervalSeconds_eq :
    dedupIntervalSeconds = DEDUP_INTERVAL_HOURS * 3600 := by
  unfold dedupIntervalSeconds DEDUP_INTERVAL_HOURS
  norm_num

/-! Helper lemmas about the inner product. -/

theorem dotQ_nil_left (b : List ℚ) : dotQ [] b = 0 := by
  cases b <;> rfl

theorem dotQ_nil_right (a : List ℚ) : dotQ a [] = 0 := by
  cases a <;> rfl

theorem dotQ_cons (a b : ℚ) (as bs : List ℚ) :
    dotQ (a :: as) (b :: bs) = a * b + dotQ as bs := by
  show qadd (qmul a b) (dotQ as bs) = _
  rw [qmul_eq, qadd_eq]

theorem dotQ_comm (a b : List ℚ) : dotQ a b = dotQ b a := by
  induction a generalizing b with
  | nil => cases b <;> simp [dotQ_nil_left, dotQ_nil_right]
  | cons x xs ih =>
    cases b with
    | nil => simp [dotQ_nil_left, dotQ_nil_right]
    | cons y ys => simp [dotQ_cons, ih, mul_comm]

theorem dotQ_self_nonneg (a : List ℚ) : 0 ≤ dotQ a a := by
  induction a with
  | nil => simp [dotQ_nil_left]
  | cons x xs ih =>
    have := mul_self_nonneg x
    rw [dotQ_cons]
    linarith

theorem two_mul_dotQ_le (a b : List ℚ) : 2 * dotQ a b ≤ dotQ a a + dotQ b b := by
  induction a generalizing b with
  | nil =>
    cases b with
    | nil => simp [dotQ_nil_left]
    | cons y ys =>
      have hb := dotQ_self_nonneg ys
      rw [dotQ_nil_left, dotQ_nil_left, dotQ_cons]
      nlinarith [mul_self_nonneg y]
  | cons x xs ih =>
    cases b with
    | nil =>
      have := dotQ_self_nonneg xs
      rw [dotQ_nil_right, dotQ_nil_right, dotQ_cons]
      nlinarith [mul_self_nonneg x]
    | cons y ys =>
      have h1 := ih ys
      have h2 := sq_nonneg (x - y)
      rw [dotQ_cons, dotQ_cons, dotQ_cons]
      nlinarith

theorem dotQ_le_one {a b : List ℚ} (ha : dotQ a a = 1) (hb : dotQ b b = 1) :
    dotQ a b ≤ 1 := by
  have := two_mul_dotQ_le a b
  rw [ha, hb] at this
  linarith

theorem dotQ_eq_of_two_mul_dotQ_eq {u v : List ℚ} (hlen : u.length = v.length)
    (h : dotQ u u + dotQ v v = 2 * dotQ u v) : u = v := by
  induction u generalizing v with
  | nil =>
    cases v with
    | nil => rfl
    | cons y ys => exact absurd hlen (by simp)
  | cons x xs ih =>
    cases v with
    | nil => exact absurd hlen (by simp)
    | cons y ys =>
      have hlen2 : xs.length = ys.length := by simpa using hlen
      rw [dotQ_cons, dotQ_cons, dotQ_cons] at h
      have h1 := two_mul_dotQ_le xs ys
      have hsq : (x - y) ^ 2 = 0 := le_antisymm (by nlinarith) (sq_nonneg _)
      have hxy : x = y := by
        have hz : x - y = 0 := pow_eq_zero_iff (by norm_num) |>.mp hsq
        linarith
      subst hxy
      have htail : dotQ xs xs + dotQ ys ys = 2 * dotQ xs ys := by nlinarith
      rw [ih hlen2 htail]

theorem dotQ_lt_one_of_ne {u v : List ℚ} (hlen : u.length = v.length)
    (hu : dotQ u u = 1) (hv : dotQ v v = 1) (hne : u ≠ v) :
    dotQ u v < 1 := by
  rcases lt_or_eq_of_le (dotQ_le_one hu hv) with h | h
  · exact h
  · exfalso
    apply hne
    apply dotQ_eq_of_two_mul_dotQ_eq hlen
    rw [hu, hv, h]
    norm_num

/-! Helper lemmas about the k-nearest-neighbor rows. -/

theorem mem_knnIndices_lt {sims : ℕ → ℚ} {n k i : ℕ}
    (h : i ∈ knnIndices sims n k) : i < n := by
  unfold knnIndices at h
  have h1 := List.mem_of_mem_take h
  have h2 := (List.perm_insertionSort (simRank sims) (List.range n)).subset h1
  exact List.mem_range.mp h2

theorem mem_neighborList_lt {mems : List Memory} {k i j : ℕ}
    (h : j ∈ neighborList mems k i) : j < mems.length :=
  mem_knnIndices_lt (List.mem_of_mem_drop h)

/-! Helper lemmas about the removal loop. -/

theorem subset_scanNeighbors (mems : List Memory) (i : ℕ) :
    ∀ (neigh : List ℕ) (R : List ℕ), R ⊆ scanNeighbors mems i neigh R := by
  intro neigh
  induction neigh with
  | nil => intro R; exact List.Subset.refl R
  | cons j rest ih =>
    intro R
    simp only [scanNeighbors]
    by_cases hc : neighborSims mems i j < SIMILARITY_THRESHOLD ∨ j ∈ R
    · rw [if_pos hc]; exact ih R
    · rw [if_neg hc]
      by_cases himp : impAt mems j ≤ impAt mems i
      · rw [if_pos himp]
        exact (List.subset_cons_self j R).trans (ih (j :: R))
      · rw [if_neg himp]
        exact List.subset_cons_self i R

theorem subset_foldl_dedupStep (mems : List Memory) (k : ℕ) :
    ∀ (l : List ℕ) (R : List ℕ), R ⊆ l.foldl (dedupStep mems k) R := by
  intro l
  induction l with
  | nil => intro R; exact List.Subset.refl R
  | cons x rest ih =>
    intro R
    have h1 : R ⊆ dedupStep mems k R x := by
      unfold dedupStep
      by_cases hx : x ∈ R
      · rw [if_pos hx]
        exact List.Subset.refl R
      · rw [if_neg hx]; exact subset_scanNeighbors mems x _ R
    simp only [List.foldl_cons]
    exact h1.trans (ih (dedupStep mems k R x))

theorem scanNeighbors_hits (mems : List Memory) (i b : ℕ) :
    ∀ (neigh : List ℕ) (R : List ℕ), b ∈ neigh →
      SIMILARITY_THRESHOLD ≤ neighborSims mems i b →
      b ∈ scanNeighbors mems i neigh R ∨ i ∈ scanNeighbors mems i neigh R := by
  intro neigh
  induction neigh with
  | nil => intro R hb; cases hb
  | cons j rest ih =>
    intro R hb hsim
    simp only [scanNeighbors]
    by_cases hc : neighborSims mems i j < SIMILARITY_THRESHOLD ∨ j ∈ R
    · rw [if_pos hc]
      rcases List.mem_cons.mp hb with rfl | hbr
      · rcases hc with h | h
        · exact absurd hsim (not_le.mpr h)
        · exact Or.inl (subset_scanNeighbors mems i rest R h)
      · exact ih R hbr hsim
    · rw [if_neg hc]
      by_cases himp : impAt mems j ≤ impAt mems i
      · rw [if_pos himp]
        rcases List.mem_cons.mp hb with rfl | hbr
        · exact Or.inl (subset_scanNeighbors mems i rest _ (List.mem_cons_self b R))
        · exact ih (j :: R) hbr hsim
      · rw [if_neg himp]
        exact Or.inr (List.mem_cons_self i R)

theorem scanNeighbors_justified (mems : List Memory) (k : ℕ) {i : ℕ} (hi : i < mems.length) :
    ∀ (neigh : List ℕ) (R : List ℕ),
      (∀ j ∈ neigh, j ∈ neighborList mems k i) →
      (∀ r ∈ R, JustifiedStrict mems k r) →
      ∀ r ∈ scanNeighbors mems i neigh R, JustifiedStrict mems k r := by
  intro neigh
  induction neigh with
  | nil => intro R _ hR; exact hR
  | cons j rest ih =>
    intro R hneigh hR
    have hjnl : j ∈ neighborList mems k i := hneigh j (List.mem_cons_self j rest)
    have hjlt : j < mems.length := mem_neighborList_lt hjnl
    have hrest : ∀ x ∈ rest, x ∈ neighborList mems k i :=
      fun x hx => hneigh x (List.mem_cons_of_mem j hx)
    simp only [scanNeighbors]
    by_cases hc : neighborSims mems i j < SIMILARITY_THRESHOLD ∨ j ∈ R
    · rw [if_pos hc]; exact ih R hrest hR
    · rw [if_neg hc]
      push_neg at hc
      obtain ⟨hsim, _⟩ := hc
      by_cases himp : impAt mems j ≤ impAt mems i
      · rw [if_pos himp]
        refine ih (j :: R) hrest ?_
        intro r hr
        rcases List.mem_cons.mp hr with rfl | hrR
        · refine ⟨i, hi, by rw [dotQ_comm]; exact hsim, himp, ?_⟩
          rcases eq_or_ne i r with rfl | hne
          · exact Or.inr hjnl
          · exact Or.inl hne
        · exact hR r hrR
      · rw [if_neg himp]
        intro r hr
        rcases List.mem_cons.mp hr with rfl | hrR
        · have hlt := not_le.mp himp
          refine ⟨j, hjlt, hsim, le_of_lt hlt, Or.inl ?_⟩
          intro hji
          rw [hji] at hlt
          exact lt_irrefl _ hlt
        · exact hR r hrR

theorem foldl_dedupStep_justified (mems : List Memory) (k : ℕ) :
    ∀ (l : List ℕ), (∀ x ∈ l, x < mems.length) →
      ∀ (R : List ℕ), (∀ r ∈ R, JustifiedStrict mems k r) →
      ∀ r ∈ l.foldl (dedupStep mems k) R, JustifiedStrict mems k r := by
  intro l
  induction l with
  | nil => intro _ R hR; exact hR
  | cons x rest ih =>
    intro hl R hR
    have hx : x < mems.length := hl x (List.mem_cons_self x rest)
    have hrest : ∀ y ∈ rest, y < mems.length := fun y hy => hl y (List.mem_cons_of_mem x hy)
    simp only [List.foldl_cons]
    refine ih hrest (dedupStep mems k R x) ?_
    unfold dedupStep
    by_cases hxR : x ∈ R
    · rw [if_pos hxR]; exact hR
    · rw [if_neg hxR]
      exact scanNeighbors_justified mems k hx (neighborList mems k x)
        R (fun j hj => hj) hR

theorem removedSet_justified (mems : List Memory) :
    ∀ r ∈ removedSet mems, JustifiedStrict mems (min 10 mems.length) r := by
  unfold removedSet
  refine foldl_dedupStep_justified mems (min 10 mems.length) (List.range mems.length)
    (fun x hx => List.mem_range.mp hx) [] ?_
  intro r hr
  exact absurd hr (List.not_mem_nil r)

/-! Helper lemmas about the output list shape of the deduplication pass. -/

theorem deduplicate_fast_sublist_aux (mems : List Memory) :
    List.Sublist (deduplicate_fast mems) mems := by
  unfold deduplicate_fast
  split
  · exact List.Sublist.refl mems
  · have h1 : List.Sublist (mems.enum.filter fun p => p.1 ∉ removedSet mems) mems.enum :=
      List.filter_sublist _
    have h2 := h1.map Prod.snd
    rwa [List.enum_map_snd] at h2

theorem mem_enum_facts {mems : List Memory} {p : ℕ × Memory} (h : p ∈ mems.enum) :
    p.1 < mems.length ∧ mems.getD p.1 mdef = p.2 := by
  have h1 := List.mem_enum_iff_getElem?.mp h
  have h2 := (List.getElem?_eq_some.mp h1).1
  refine ⟨h2, ?_⟩
  rw [List.getD_eq_getElem mems mdef h2]
  rw [List.getElem?_eq_getElem h2] at h1
  exact Option.some.inj h1

theorem getD_mem_of_lt {l : List Memory} {i : ℕ} (h : i < l.length) :
    l.getD i mdef ∈ l := by
  rw [List.getD_eq_getElem l mdef h]
  exact List.getElem_mem h

theorem enum_pairwise_ne (mems : List Memory) :
    mems.enum.Pairwise fun p q => p.1 ≠ q.1 := by
  have h1 : (mems.enum.map Prod.fst).Nodup := List.nodup_enum_map_fst mems
  rw [List.Nodup] at h1
  exact List.pairwise_map.mp h1

/-! Helper lemmas about the sorted neighbor rows. -/

theorem knn_sorted_perm (sims : ℕ → ℚ) (n : ℕ) :
    List.Perm (List.insertionSort (simRank sims) (List.range n)) (List.range n) :=
  List.perm_insertionSort (simRank sims) (List.range n)

theorem knn_sorted_length (sims : ℕ → ℚ) (n : ℕ) :
    (List.insertionSort (simRank sims) (List.range n)).length = n := by
  rw [(knn_sorted_perm sims n).length_eq, List.length_range]

theorem knn_sorted_nodup (sims : ℕ → ℚ) (n : ℕ) :
    (List.insertionSort (simRank sims) (List.range n)).Nodup :=
  (knn_sorted_perm sims n).nodup_iff.mpr (List.nodup_range n)

theorem insertionSort_head_max (sims : ℕ → ℚ) (n x : ℕ) (hx : x < n)
    (hmax : ∀ j, j < n → j ≠ x → sims j < sims x) :
    ∃ t, List.insertionSort (simRank sims) (List.range n) = x :: t ∧ x ∉ t := by
  have hperm := knn_sorted_perm sims n
  have hlen := knn_sorted_length sims n
  have hne : List.insertionSort (simRank sims) (List.range n) ≠ [] := by
    intro habs
    rw [habs] at hlen
    simp at hlen
    omega
  obtain ⟨h, t, heq⟩ := List.exists_cons_of_ne_nil hne
  have hsorted := List.sorted_insertionSort (simRank sims) (List.range n)
  rw [heq] at hperm hsorted
  have hhn : h < n := List.mem_range.mp (hperm.subset (List.mem_cons_self h t))
  have hhx : h = x := by
    by_contra hne'
    have hxt : x ∈ t := by
      have hxL : x ∈ h :: t := hperm.mem_iff.mpr (List.mem_range.mpr hx)
      rcases List.mem_cons.mp hxL with rfl | hxt
      · exact absurd rfl hne'
      · exact hxt
    have hrank : simRank sims h x := (List.pairwise_cons.mp hsorted).1 x hxt
    have hlt : sims h < sims x := hmax h hhn hne'
    rcases hrank with hlt' | ⟨heq', _⟩
    · exact absurd hlt (not_lt.mpr (le_of_lt hlt'))
    · rw [heq'] at hlt
      exact lt_irrefl _ hlt
  subst hhx
  have hnd : (h :: t).Nodup := by
    rw [← heq]
    exact knn_sorted_nodup sims n
  exact ⟨t, heq, (List.nodup_cons.mp hnd).1⟩

theorem self_not_mem_neighborList (mems : List Memory) (k : ℕ) {i : ℕ}
    (hi : i < mems.length)
    (hmax : ∀ h, h < mems.length → h ≠ i →
      neighborSims mems i h < neighborSims mems i i) :
    i ∉ neighborList mems k i := by
  obtain ⟨t, heq, hit⟩ :=
    insertionSort_head_max (neighborSims mems i) mems.length i hi hmax
  unfold neighborList knnIndices
  rw [heq]
  intro hmem
  rw [List.drop_take] at hmem
  have h1 := List.mem_of_mem_take hmem
  have h2 : i ∈ t := by simpa using h1
  exact hit h2

/-! Pair-coverage of the removal loop when the neighbor fan-out covers the
whole collection (at most 10 records): of any two distinct records within
the similarity threshold of one another, at least one is removed. -/

theorem foldl_dedupStep_pair (mems : List Memory) (k : ℕ) {a e : ℕ}
    (he : e ∈ neighborList mems k a)
    (hsim : SIMILARITY_THRESHOLD ≤ neighborSims mems a e) :
    ∀ (l : List ℕ) (R : List ℕ), a ∈ l →
      a ∈ l.foldl (dedupStep mems k) R ∨ e ∈ l.foldl (dedupStep mems k) R := by
  intro l
  induction l with
  | nil => intro R hal; cases hal
  | cons x rest ih =>
    intro R hal
    simp only [List.foldl_cons]
    by_cases hxa : x = a
    · subst hxa
      by_cases hxR : x ∈ R
      · left
        have h1 : x ∈ dedupStep mems k R x := by
          unfold dedupStep
          rw [if_pos hxR]
          exact hxR
        exact subset_foldl_dedupStep mems k rest _ h1
      · have hstep : dedupStep mems k R x = scanNeighbors mems x (neighborList mems k x) R := by
          unfold dedupStep
          rw [if_neg hxR]
        have hhits := scanNeighbors_hits mems x e (neighborList mems k x) R he hsim
        rcases hhits with hE | hA
        · right
          rw [hstep]
          exact subset_foldl_dedupStep mems k rest _ hE
        · left
          rw [hstep]
          exact subset_foldl_dedupStep mems k rest _ hA
    · have har : a ∈ rest := by
        rcases List.mem_cons.mp hal with rfl | h
        · exact absurd rfl hxa
        · exact h
      exact ih (dedupStep mems k R x) har

theorem removedSet_pair (mems : List Memory) (hsmall : mems.length ≤ 10)
    {a b : ℕ} (ha : a < mems.length) (hb : b < mems.length) (hab : a ≠ b)
    (hua : dotQ (embAt mems a) (embAt mems a) = 1)
    (hsim : SIMILARITY_THRESHOLD ≤ dotQ (embAt mems a) (embAt mems b)) :
    a ∈ removedSet mems ∨ b ∈ removedSet mems := by
  have hk : min 10 mems.length = mems.length := min_eq_right hsmall
  -- the sorted row of record a covers the whole collection
  have htake :
      knnIndices (neighborSims mems a) mems.length (min 10 mems.length) =
        List.insertionSort (simRank (neighborSims mems a)) (List.range mems.length) := by
    unfold knnIndices
    rw [hk]
    exact List.take_of_length_le (le_of_eq (knn_sorted_length (neighborSims mems a) mems.length))
  -- find a representative of {a, b} in the neighbor row of a
  have hrow : ∃ e, e ∈ neighborList mems (min 10 mems.length) a ∧
      SIMILARITY_THRESHOLD ≤ neighborSims mems a e ∧ (e = a ∨ e = b) := by
    have hperm := knn_sorted_perm (neighborSims mems a) mems.length
    obtain ⟨h, t, heq⟩ := List.exists_cons_of_ne_nil (by
      intro habs
      have hlen := knn_sorted_length (neighborSims mems a) mems.length
      rw [habs] at hlen
      simp at hlen
      omega :
      List.insertionSort (simRank (neighborSims mems a)) (List.range mems.length) ≠ [])
    have hdrop : neighborList mems (min 10 mems.length) a = t := by
      unfold neighborList
      rw [htake, heq]
      rfl
    rw [heq] at hperm
    by_cases hat : a ∈ t
    · refine ⟨a, by rw [hdrop]; exact hat, ?_, Or.inl rfl⟩
      unfold neighborSims
      rw [hua, similarity_threshold_eq]
      norm_num
    · -- a is the head, so b is in the tail
      have haL : a ∈ h :: t := hperm.mem_iff.mpr (List.mem_range.mpr ha)
      have hha : h = a := by
        rcases List.mem_cons.mp haL with rfl | h'
        · rfl
        · exact absurd h' hat
      have hbL : b ∈ h :: t := hperm.mem_iff.mpr (List.mem_range.mpr hb)
      have hbt : b ∈ t := by
        rcases List.mem_cons.mp hbL with rfl | h'
        · exact absurd hha.symm hab
        · exact h'
      exact ⟨b, by rw [hdrop]; exact hbt, hsim, Or.inr rfl⟩
  obtain ⟨e, hel, hes, hcase⟩ := hrow
  have := foldl_dedupStep_pair mems (min 10 mems.length) hel hes
    (List.range mems.length) [] (List.mem_range.mpr ha)
  unfold removedSet
  rcases hcase with rfl | rfl
  · rcases this with h | h
    · exact Or.inl h
    · exact Or.inl h
  · exact this

/-! Pairwise dissimilarity of the survivors (small collections). -/

theorem deduplicate_fast_pairwise (mems : List Memory) (hsmall : mems.length ≤ 10)
    (hunit : ∀ m ∈ mems, dotQ m.embedding m.embedding = 1) :
    (deduplicate_fast mems).Pairwise
      fun x y => dotQ x.embedding y.embedding < SIMILARITY_THRESHOLD := by
  by_cases hle : mems.length ≤ 1
  · unfold deduplicate_fast
    rw [if_pos hle]
    rcases mems with _ | ⟨m, _ | ⟨m2, t⟩⟩
    · exact List.Pairwise.nil
    · simp
    · exfalso
      simp [List.length_cons] at hle
  · unfold deduplicate_fast
    rw [if_neg hle]
    apply List.pairwise_map.mpr
    have hp := (enum_pairwise_ne mems).filter fun p => decide (p.1 ∉ removedSet mems)
    refine hp.imp_of_mem ?_
    intro p q hpmem hqmem hne
    have hpm := List.mem_filter.mp hpmem
    have hqm := List.mem_filter.mp hqmem
    obtain ⟨hp1, hp2⟩ := mem_enum_facts hpm.1
    obtain ⟨hq1, hq2⟩ := mem_enum_facts hqm.1
    have hpR : p.1 ∉ removedSet mems := by simpa using hpm.2
    have hqR : q.1 ∉ removedSet mems := by simpa using hqm.2
    by_contra hge
    have hsim : SIMILARITY_THRESHOLD ≤ dotQ (embAt mems p.1) (embAt mems q.1) := by
      unfold embAt
      rw [hp2, hq2]
      exact not_lt.mp hge
    have hu : dotQ (embAt mems p.1) (embAt mems p.1) = 1 := by
      unfold embAt
      rw [hp2]
      exact hunit p.2 (by rw [← hp2]; exact getD_mem_of_lt hp1)
    rcases removedSet_pair mems hsmall hp1 hq1 hne hu hsim with h | h
    · exact hpR h
    · exact hqR h

/-! When no pair of records reaches the similarity threshold, the pass
removes nothing. -/

theorem scanNeighbors_id_of_dissimilar (mems : List Memory) (x : ℕ) :
    ∀ (neigh : List ℕ), (∀ j ∈ neigh, neighborSims mems x j < SIMILARITY_THRESHOLD) →
      ∀ R, scanNeighbors mems x neigh R = R := by
  intro neigh
  induction neigh with
  | nil => intro _ R; rfl
  | cons j rest ih =>
    intro hall R
    simp only [scanNeighbors]
    rw [if_pos (Or.inl (hall j (List.mem_cons_self j rest)))]
    exact ih (fun y hy => hall y (List.mem_cons_of_mem j hy)) R

theorem removedSet_empty_of_dissimilar (mems : List Memory)
    (hunit : ∀ m ∈ mems, dotQ m.embedding m.embedding = 1)
    (hdis : ∀ i j, i < mems.length → j < mems.length → i ≠ j →
      dotQ (embAt mems i) (embAt mems j) < SIMILARITY_THRESHOLD) :
    removedSet mems = [] := by
  have hstep : ∀ x, x < mems.length → ∀ j ∈ neighborList mems (min 10 mems.length) x,
      neighborSims mems x j < SIMILARITY_THRESHOLD := by
    intro x hx j hj
    have hux : dotQ (embAt mems x) (embAt mems x) = 1 := by
      unfold embAt
      exact hunit _ (getD_mem_of_lt hx)
    have hmax : ∀ y, y < mems.length → y ≠ x →
        neighborSims mems x y < neighborSims mems x x := by
      intro y hy hyx
      have h1 : neighborSims mems x y < SIMILARITY_THRESHOLD :=
        hdis x y hx hy (fun h => hyx h.symm)
      have h2 : neighborSims mems x x = 1 := hux
      rw [h2]
      have : SIMILARITY_THRESHOLD < 1 := by rw [similarity_threshold_eq]; norm_num
      linarith
    obtain ⟨t, heq, hxt⟩ :=
      insertionSort_head_max (neighborSims mems x) mems.length x hx hmax
    have hjt : j ∈ t := by
      unfold neighborList knnIndices at hj
      rw [heq] at hj
      rw [List.drop_take] at hj
      have := List.mem_of_mem_take hj
      simpa using this
    have hjx : j ≠ x := fun h => hxt (h ▸ hjt)
    have hjn : j < mems.length := mem_neighborList_lt hj
    exact hdis x j hx hjn (fun h => hjx h.symm)
  have hfold : ∀ (l : List ℕ), (∀ x ∈ l, x < mems.length) →
      l.foldl (dedupStep mems (min 10 mems.length)) [] = [] := by
    intro l
    induction l with
    | nil => intro _; rfl
    | cons x rest ih =>
      intro hl
      have hx : x < mems.length := hl x (List.mem_cons_self x rest)
      simp only [List.foldl_cons]
      have hs : dedupStep mems (min 10 mems.length) [] x = [] := by
        unfold dedupStep
        rw [if_neg (List.not_mem_nil x)]
        exact scanNeighbors_id_of_dissimilar mems x _ (hstep x hx) []
      rw [hs]
      exact ih fun y hy => hl y (List.mem_cons_of_mem x hy)
  unfold removedSet
  exact hfold (List.range mems.length) fun x hx => List.mem_range.mp hx

theorem deduplicate_fast_id_of_dissimilar (mems : List Memory)
    (hunit : ∀ m ∈ mems, dotQ m.embedding m.embedding = 1)
    (hdis : ∀ i j, i < mems.length → j < mems.length → i ≠ j →
      dotQ (embAt mems i) (embAt mems j) < SIMILARITY_THRESHOLD) :
    deduplicate_fast mems = mems := by
  by_cases hle : mems.length ≤ 1
  · unfold deduplicate_fast
    rw [if_pos hle]
  · unfold deduplicate_fast
    rw [if_neg hle]
    rw [removedSet_empty_of_dissimilar mems hunit hdis]
    have hfilter : (mems.enum.filter fun p => decide (p.1 ∉ ([] : List ℕ))) = mems.enum := by
      apply List.filter_eq_self.mpr
      intro p _
      simp
    rw [hfilter, List.enum_map_snd]

/-! Claim theorems: deduplication engine. -/

/-- C7: the output of `_deduplicate_fast` is a subsequence of its input —
every output record is an unmodified input record, nothing is duplicated
or added, and the surviving records keep their original relative order
(the function is modelled as a pure function of the input list, matching
the source, which only reads the records and builds a fresh list). -/
theorem c7_dedup_output_sublist (mems : List Memory) :
    List.Sublist (deduplicate_fast mems) mems :=
  deduplicate_fast_sublist_aux mems

/-- C5 counterexample: an 11-record collection of unit embeddings on
which running `_deduplicate_fast` twice removes strictly more than
running it once, so deduplication is not idempotent as claimed. -/
theorem c5_dedup_not_idempotent :
    deduplicate_fast (deduplicate_fast c5_mems) ≠ deduplicate_fast c5_mems := by
  decide

/-- C5 (amended): deduplication is idempotent for collections of at most
10 memories with unit (normalized) embeddings — there the neighbor
fan-out `k = min(10, N)` covers the whole collection, survivors are
pairwise below the similarity threshold, and a second pass removes
nothing.  With more than 10 memories the truncated fan-out can hide a
close pair, and a second pass can remove further records (see the
counterexample). -/
theorem c5_dedup_idempotent_small (mems : List Memory) (hsmall : mems.length ≤ 10)
    (hunit : ∀ m ∈ mems, dotQ m.embedding m.embedding = 1) :
    deduplicate_fast (deduplicate_fast mems) = deduplicate_fast mems := by
  have hsub := deduplicate_fast_sublist_aux mems
  have hunit2 : ∀ m ∈ deduplicate_fast mems, dotQ m.embedding m.embedding = 1 :=
    fun m hm => hunit m (hsub.subset hm)
  have hpw := deduplicate_fast_pairwise mems hsmall hunit
  have hidx := List.pairwise_iff_getElem.mp hpw
  apply deduplicate_fast_id_of_dissimilar (deduplicate_fast mems) hunit2
  intro i j hi hj hij
  have hemb : ∀ t (ht : t < (deduplicate_fast mems).length),
      embAt (deduplicate_fast mems) t = (deduplicate_fast mems)[t].embedding := by
    intro t ht
    unfold embAt
    rw [List.getD_eq_getElem _ mdef ht]
  rcases Nat.lt_or_ge i j with hlt | hge
  · rw [hemb i hi, hemb j hj]
    exact hidx i j hi hj hlt
  · have hlt : j < i := lt_of_le_of_ne hge (Ne.symm hij)
    rw [hemb i hi, hemb j hj, dotQ_comm]
    exact hidx j i hj hi hlt

/-- Witness for the amended C5 statement at a concrete two-record
collection of orthogonal unit embeddings. -/
theorem c5_dedup_idempotent_small_witness :
    c5w_mems.length ≤ 10 ∧
      deduplicate_fast (deduplicate_fast c5w_mems) = deduplicate_fast c5w_mems :=
  ⟨by decide, c5_dedup_idempotent_small c5w_mems (by decide) (by decide)⟩

/-- C2 counterexample: in `c2_mems` records 1 and 2 are near-duplicates
(similarity 4/5 ≥ 0.75) and record 1 has strictly higher importance than
record 2, yet record 1 is removed by the pass (record 0, more important
still and similar to record 1, removes it first). -/
theorem c2_importance_monotonicity_cex :
    SIMILARITY_THRESHOLD ≤ dotQ (embAt c2_mems 1) (embAt c2_mems 2) ∧
      impAt c2_mems 2 < impAt c2_mems 1 ∧
      c2_mems.getD 1 mdef ∉ deduplicate_fast c2_mems := by
  decide

/-- C2 (amended): for two near-duplicate records i, j with i of strictly
higher importance, in a collection of unit embeddings of one shared
dimension where no other record shares record i's embedding, if i is
removed at all then the removal is justified by a third record distinct
from both i and j, of importance at least i's and within the similarity
threshold of i — i is never removed in favor of j, but such a third
record can remove it before the pair comparison happens.  (When another
record does share i's embedding, i can additionally remove itself
through the positional self-match slip; see the C9 theorem.) -/
theorem c2_removal_needs_superior (mems : List Memory) (i j : ℕ)
    (hi : i < mems.length) (hj : j < mems.length)
    (hunit : ∀ m ∈ mems, dotQ m.embedding m.embedding = 1)
    (hdim : ∀ m ∈ mems, m.embedding.length = (embAt mems i).length)
    (hdistinct : ∀ h, h < mems.length → h ≠ i → embAt mems h ≠ embAt mems i)
    (hsim : SIMILARITY_THRESHOLD ≤ dotQ (embAt mems i) (embAt mems j))
    (himp : impAt mems j < impAt mems i)
    (hrem : i ∈ removedSet mems) :
    ∃ s, s < mems.length ∧ s ≠ i ∧ s ≠ j ∧
      SIMILARITY_THRESHOLD ≤ dotQ (embAt mems i) (embAt mems s) ∧
      impAt mems i ≤ impAt mems s := by
  have hselfsim : dotQ (embAt mems i) (embAt mems i) = 1 :=
    hunit _ (getD_mem_of_lt hi)
  have hmax : ∀ h, h < mems.length → h ≠ i →
      neighborSims mems i h < neighborSims mems i i := by
    intro h hh hhn
    show dotQ (embAt mems i) (embAt mems h) < dotQ (embAt mems i) (embAt mems i)
    rw [hselfsim]
    refine dotQ_lt_one_of_ne ?_ hselfsim (hunit _ (getD_mem_of_lt hh)) ?_
    · exact (hdim _ (getD_mem_of_lt hh)).symm
    · exact fun he => hdistinct h hh hhn he.symm
  obtain ⟨s, hs, hss, hsi, hcase⟩ := removedSet_justified mems i hrem
  have hsni : s ≠ i := by
    rcases hcase with h | h
    · exact h
    · exact absurd h (self_not_mem_neighborList mems (min 10 mems.length) hi hmax)
  have hsnj : s ≠ j := by
    intro he
    subst he
    exact absurd hsi (not_le.mpr himp)
  exact ⟨s, hs, hsni, hsnj, hss, hsi⟩

/-- Witness for the amended C2 statement at the concrete counterexample
collection (unit 2-dimensional embeddings, all distinct): record 1 is
removed, and the justifier is a record distinct from both members of the
pair — record 0, the more important near-duplicate that removed it. -/
theorem c2_removal_needs_superior_witness :
    ∃ s, s < c2_mems.length ∧ s ≠ 1 ∧ s ≠ 2 ∧
      SIMILARITY_THRESHOLD ≤ dotQ (embAt c2_mems 1) (embAt c2_mems s) ∧
      impAt c2_mems 1 ≤ impAt c2_mems s :=
  c2_removal_needs_superior c2_mems 1 2 (by decide) (by decide) (by decide)
    (by decide) (by decide) (by decide) (by decide) (by decide)

/-- C4 counterexample: in `c4_mems` records 1 and 2 have equal importance
and similarity 4/5 ≥ 0.75, yet the earlier record 1 does not survive the
pass while the later record 2 does (record 0 removes record 1 first, so
the pair comparison that would protect record 1 never happens). -/
theorem c4_tiebreak_cex :
    impAt c4_mems 1 = impAt c4_mems 2 ∧
      SIMILARITY_THRESHOLD ≤ dotQ (embAt c4_mems 1) (embAt c4_mems 2) ∧
      c4_mems.getD 1 mdef ∉ deduplicate_fast c4_mems ∧
      c4_mems.getD 2 mdef ∈ deduplicate_fast c4_mems := by
  decide

/-- C9: on two records with identical embeddings the second record's
self-match ranks second (the identical earlier record wins the tie for
the top slot), so the source's positional skip misses it; the second
record then removes itself by the self-comparison, and the whole
collection is emptied — even though record 1 has the strictly highest
importance.  With the intended `j ≠ i` guard the output would be the
record with the higher importance. -/
theorem c9_self_comparison_removal :
    deduplicate_fast c9_mems = [] ∧ impAt c9_mems 0 < impAt c9_mems 1 ∧
      embAt c9_mems 0 = embAt c9_mems 1 := by
  decide

/-- C3: a failed upload in `add_memory` is not atomic with respect to the
process-wide cache: the operation raises and the stored collection is
unchanged, but the cached collection has already been mutated (the new
memory appended and `updated_at` stamped) because the loaded collection
is the cached object itself. -/
theorem c3_cache_mutated_on_failed_upload :
    (add_memory 5 true false ("new-fact") (Rat.divInt 9 10) ("c") [] [0, 1] c3_state).1 = .error () ∧
      (add_memory 5 true false ("new-fact") (Rat.divInt 9 10) ("c") [] [0, 1] c3_state).2.storage =
        c3_state.storage ∧
      (add_memory 5 true false ("new-fact") (Rat.divInt 9 10) ("c") [] [0, 1] c3_state).2.cache ≠
        c3_state.cache := by
  decide

/-! Helper lemmas about the search path. -/

theorem searchTopIndices_length (qEmb : List ℚ) (mems : List Memory) (top_k : ℕ) :
    (searchTopIndices qEmb mems top_k).length = min top_k mems.length := by
  unfold searchTopIndices knnIndices
  rw [List.length_take, knn_sorted_length]
  omega

theorem searchTopMems_length (qEmb : List ℚ) (mems : List Memory) (top_k : ℕ) :
    (searchTopMems qEmb mems top_k).length = min top_k mems.length := by
  unfold searchTopMems
  rw [List.length_map, searchTopIndices_length]

theorem searchTopMems_sorted (qEmb : List ℚ) (mems : List Memory) (top_k : ℕ) :
    (searchTopMems qEmb mems top_k).Pairwise
      fun x y => dotQ qEmb y.embedding ≤ dotQ qEmb x.embedding := by
  unfold searchTopMems searchTopIndices knnIndices
  apply List.pairwise_map.mpr
  have hs := List.sorted_insertionSort (simRank fun j => dotQ qEmb (embAt mems j))
    (List.range mems.length)
  have ht : (((List.insertionSort (simRank fun j => dotQ qEmb (embAt mems j))
      (List.range mems.length)).take (min top_k mems.length))).Pairwise
      (simRank fun j => dotQ qEmb (embAt mems j)) :=
    hs.sublist (List.take_sublist _ _)
  refine ht.imp ?_
  intro i j hij
  show dotQ qEmb (embAt mems j) ≤ dotQ qEmb (embAt mems i)
  rcases hij with h | ⟨h, _⟩
  · exact le_of_lt h
  · exact le_of_eq h.symm

theorem searchTopMems_mem (qEmb : List ℚ) (mems : List Memory) (top_k : ℕ) :
    ∀ m ∈ searchTopMems qEmb mems top_k, m ∈ mems := by
  intro m hm
  unfold searchTopMems at hm
  obtain ⟨i, hi, rfl⟩ := List.mem_map.mp hm
  have hlt : i < mems.length := mem_knnIndices_lt hi
  exact getD_mem_of_lt hlt

/-! Claim theorems: search path and service. -/

/-- C1: a successful `search_memories` call returns exactly
`min(top_k, N)` records, where `N` is the size of the collection it
searches (the loaded collection, after the deduplication pass when that
was triggered); the underlying matches are ordered by non-increasing
inner product with the query embedding (cosine similarity of the
normalized vectors), they all come from the searched collection, and an
empty collection yields the empty result without error. -/
theorem c1_search_topk_sorted (now : ℚ) (qEmb : List ℚ) (top_k : ℕ) (s : StoreState) :
    ∃ tm : List Memory,
      (search_memories now true qEmb top_k s).1 = .ok (tm.map (·.data)) ∧
      tm.length = min top_k (searchedCol now s).memories.length ∧
      tm.Pairwise (fun x y => dotQ qEmb y.embedding ≤ dotQ qEmb x.embedding) ∧
      ∀ m ∈ tm, m ∈ (searchedCol now s).memories := by
  by_cases hemp : (load_memories now s).1.memories.isEmpty = true
  · have hnil : (load_memories now s).1.memories = [] := List.isEmpty_iff.mp hemp
    have hnd : needs_deduplication (load_memories now s).1 now = false := by
      unfold needs_deduplication
      rw [if_pos]
      rw [hnil]
      simp [MIN_MEMORIES_FOR_DEDUP]
    refine ⟨[], ?_, ?_, List.Pairwise.nil, ?_⟩
    · simp [search_memories, hemp]
    · simp [searchedCol, hnd, hnil]
    · simp
  · by_cases hded : needs_deduplication (load_memories now s).1 now = true
    · refine ⟨searchTopMems qEmb (deduplicate_apply (load_memories now s).1 now).memories top_k,
        ?_, ?_, searchTopMems_sorted qEmb _ top_k, ?_⟩
      · simp [search_memories, hemp, hded]
      · rw [searchTopMems_length]
        simp [searchedCol, hded]
      · intro m hm
        have hmm := searchTopMems_mem qEmb _ top_k m hm
        simpa [searchedCol, hded] using hmm
    · refine ⟨searchTopMems qEmb (load_memories now s).1.memories top_k,
        ?_, ?_, searchTopMems_sorted qEmb _ top_k, ?_⟩
      · simp [search_memories, hemp, hded]
      · rw [searchTopMems_length]
        simp [searchedCol, hded]
      · intro m hm
        have hmm := searchTopMems_mem qEmb _ top_k m hm
        simpa [searchedCol, hded] using hmm

/-- C6: `search_memories` runs the deduplication pass exactly when the
loaded collection has more than 10 memories and `last_deduplicated_at`
is unset or lies more than 24 hours (86400 seconds) in the past; when
the pass runs (and the upload succeeds), the reduced collection with
`last_deduplicated_at` set to the current time is persisted to storage
and the cache, and the returned matches are computed over the reduced
collection; when the trigger is false the state after the call is the
state after the load (nothing is persisted). -/
theorem c6_dedup_trigger (now : ℚ) (qEmb : List ℚ) (top_k : ℕ) (s : StoreState) :
    (needs_deduplication (load_memories now s).1 now = true ↔
      MIN_MEMORIES_FOR_DEDUP < (load_memories now s).1.memories.length ∧
        ((load_memories now s).1.last_deduplicated_at = none ∨
          ∃ t, (load_memories now s).1.last_deduplicated_at = some t ∧ now - t > 86400))
    ∧ ((load_memories now s).1.memories ≠ [] →
        needs_deduplication (load_memories now s).1 now = true →
        search_memories now true qEmb top_k s =
          (.ok ((searchTopMems qEmb (deduplicate_fast (load_memories now s).1.memories)
              top_k).map (·.data)),
            { storage := Stored.good (deduplicate_apply (load_memories now s).1 now),
              cache := some (deduplicate_apply (load_memories now s).1 now) })
        ∧ (deduplicate_apply (load_memories now s).1 now).last_deduplicated_at = some now)
    ∧ (needs_deduplication (load_memories now s).1 now = false →
        (search_memories now true qEmb top_k s).2 = (load_memories now s).2.2) := by
  refine ⟨?_, ?_, ?_⟩
  · unfold needs_deduplication
    by_cases hlen : (load_memories now s).1.memories.length ≤ MIN_MEMORIES_FOR_DEDUP
    · rw [if_pos hlen]
      simp only [Bool.false_eq_true, false_iff, not_and_or]
      left
      omega
    · rw [if_neg hlen]
      rcases hopt : (load_memories now s).1.last_deduplicated_at with _ | t
      · constructor
        · intro _
          exact ⟨by omega, Or.inl rfl⟩
        · intro _
          rfl
      · show decide (qsub now t > dedupIntervalSeconds) = true ↔ _
        rw [decide_eq_true_eq, qsub_eq]
        constructor
        · intro h
          refine ⟨by omega, Or.inr ⟨t, rfl, ?_⟩⟩
          unfold dedupIntervalSeconds at h
          linarith
        · rintro ⟨-, h | ⟨t2, ht2, hgt⟩⟩
          · exact absurd h (by simp)
          · have ht : t2 = t := (Option.some.inj ht2).symm
            subst ht
            unfold dedupIntervalSeconds
            linarith
  · intro hne hded
    have hemp : (load_memories now s).1.memories.isEmpty = false := by
      rw [List.isEmpty_eq_false]
      exact hne
    refine ⟨?_, rfl⟩
    simp only [search_memories, hemp, Bool.false_eq_true, if_false, hded, if_true]
    rfl
  · intro hded
    by_cases hemp : (load_memories now s).1.memories.isEmpty = true
    · simp [search_memories, hemp]
    · simp [search_memories, hemp, hded]

/-- Witness for C6 at a concrete collection of 11 never-deduplicated
memories: the trigger fires, the reduced collection is persisted with the
refreshed timestamp, and the results come from the reduced collection. -/
theorem c6_dedup_trigger_witness :
    search_memories 0 true [] 5 c6_state =
      (.ok ((searchTopMems [] (deduplicate_fast (load_memories 0 c6_state).1.memories)
          5).map (·.data)),
        { storage := Stored.good (deduplicate_apply (load_memories 0 c6_state).1 0),
          cache := some (deduplicate_apply (load_memories 0 c6_state).1 0) })
    ∧ (deduplicate_apply (load_memories 0 c6_state).1 0).last_deduplicated_at = some 0 :=
  (c6_dedup_trigger 0 [] 5 c6_state).2.1 (by decide) (by decide)

/-- C8: on a cache miss, every storage-read failure — missing object,
undecodable bytes, malformed JSON, or a schema-invalid document — makes
`_load_memories` return a fresh empty collection (and cache it); no such
failure is surfaced as an error. -/
theorem c8_load_failure_yields_empty (now : ℚ) (s : StoreState)
    (hc : s.cache = none) (hs : ∀ c, s.storage ≠ Stored.good c) :
    load_memories now s =
      (emptyCollection now, true, { s with cache := some (emptyCollection now) }) := by
  unfold load_memories
  rw [hc]
  rcases hst : s.storage with _ | _ | _ | _ | c
  · rfl
  · rfl
  · rfl
  · rfl
  · exact absurd hst (hs c)

/-- Witness for C8 at a concrete state whose stored blob is malformed
JSON and whose cache is empty. -/
theorem c8_load_failure_yields_empty_witness :
    load_memories 0 ⟨Stored.badJson, none⟩ =
      (emptyCollection 0, true, ⟨Stored.badJson, some (emptyCollection 0)⟩) :=
  c8_load_failure_yields_empty 0 ⟨Stored.badJson, none⟩ rfl (fun _ h => Stored.noConfusion h)

/-- C10: after every `_load_memories` call the cache holds the returned
collection (also when the read failed and the empty collection was
substituted); a call that finds a cached collection returns it without
contacting storage and leaves the state unchanged; and
`delete_all_memories` evicts the cache entry.  Hence a corrupt or absent
stored file is served as the empty collection for the rest of the
process lifetime, until a delete evicts the entry. -/
theorem c10_cache_serves_loads :
    (∀ (now : ℚ) (s : StoreState),
        ((load_memories now s).2.2).cache = some (load_memories now s).1) ∧
    (∀ (now : ℚ) (s : StoreState) (c : MemoryCollection),
        s.cache = some c → load_memories now s = (c, false, s)) ∧
    (∀ (ok : Bool) (s : StoreState), (delete_all_memories ok s).2.cache = none) := by
  refine ⟨?_, ?_, ?_⟩
  · intro now s
    unfold load_memories
    rcases hc : s.cache with _ | c
    · rfl
    · exact hc
  · intro now s c hc
    unfold load_memories
    rw [hc]
  · intro ok s
    rfl

/-- Witness for C10: a cached collection is served back unchanged, with
no storage contact. -/
theorem c10_cache_serves_loads_witness :
    load_memories 0 ⟨Stored.absent, some (emptyCollection 0)⟩ =
      (emptyCollection 0, false, ⟨Stored.absent, some (emptyCollection 0)⟩) :=
  c10_cache_serves_loads.2.1 0 ⟨Stored.absent, some (emptyCollection 0)⟩ (emptyCollection 0) rfl

/-- C4 (amended): the tie-break holds for the pair itself: in a
collection of exactly the two records, with unit (normalized)
embeddings, equal importance and similarity ≥ 0.75, the earlier record
survives and the later one is removed.  In larger collections a third
record can remove the earlier member of the pair first, and then the
later member survives (see the counterexample). -/
theorem c4_two_record_tiebreak (m0 m1 : Memory)
    (h0 : dotQ m0.embedding m0.embedding = 1)
    (h1 : dotQ m1.embedding m1.embedding = 1)
    (heq : m0.data.importance = m1.data.importance)
    (hsim : SIMILARITY_THRESHOLD ≤ dotQ m0.embedding m1.embedding) :
    deduplicate_fast [m0, m1] = [m0] := by
  have hθ1 : SIMILARITY_THRESHOLD < 1 := by
    rw [similarity_threshold_eq]
    norm_num
  have hr : simRank (neighborSims [m0, m1] 0) 0 1 := by
    have hle : dotQ m0.embedding m1.embedding ≤ 1 := dotQ_le_one h0 h1
    show neighborSims [m0, m1] 0 1 < neighborSims [m0, m1] 0 0 ∨ _
    have hs0 : neighborSims [m0, m1] 0 0 = 1 := h0
    have hs1 : neighborSims [m0, m1] 0 1 = dotQ m0.embedding m1.embedding := rfl
    rcases lt_or_eq_of_le hle with hlt | heq1
    · exact Or.inl (by rw [hs0, hs1]; exact hlt)
    · exact Or.inr ⟨by rw [hs0, hs1, heq1], Nat.zero_le 1⟩
  have hrange : List.range ([m0, m1].length) = [0, 1] := rfl
  have hsort : List.insertionSort (simRank (neighborSims [m0, m1] 0)) [0, 1] = [0, 1] := by
    simp only [List.insertionSort, List.orderedInsert]
    rw [if_pos hr]
  have hnl : neighborList [m0, m1] (min 10 [m0, m1].length) 0 = [1] := by
    unfold neighborList knnIndices
    rw [hrange, hsort]
    rfl
  have hscan : scanNeighbors [m0, m1] 0 [1] [] = [1] := by
    simp only [scanNeighbors]
    rw [if_neg, if_pos]
    · exact le_of_eq heq.symm
    · rintro (h | h)
      · exact absurd hsim (not_le.mpr h)
      · exact List.not_mem_nil 1 h
  have hrem : removedSet [m0, m1] = [1] := by
    unfold removedSet
    rw [hrange]
    simp only [List.foldl_cons, List.foldl_nil]
    have hstep0 : dedupStep [m0, m1] (min 10 [m0, m1].length) [] 0 = [1] := by
      unfold dedupStep
      rw [if_neg (List.not_mem_nil 0), hnl, hscan]
    rw [hstep0]
    unfold dedupStep
    rw [if_pos (List.mem_cons_self 1 [])]
  unfold deduplicate_fast
  rw [if_neg (by simp)]
  rw [hrem]
  rfl

/-- Witness for the amended C4 statement at a concrete two-record
collection with equal importance and similarity 4/5. -/
theorem c4_two_record_tiebreak_witness :
    deduplicate_fast c4w_mems = [c4w_mems.getD 0 mdef] := by
  have h := c4_two_record_tiebreak (c4w_mems.getD 0 mdef) (c4w_mems.getD 1 mdef)
    (by decide) (by decide) (by decide) (by decide)
  exact h
